import Mathlib

/-
Verification development for the `CommentSentimentAnalysis` pipeline item
(`comment_sentiment.go`).  Go strings are modelled as `List Char`, Go `int`
as `ℤ` (or `ℕ` for lengths and line numbers, which are non-negative at every
use site), and `float32` sentiment values as exact rationals `ℚ`; the one
place where `float32` rounding is observable — the letter-density threshold
`int(float32(len(comment)) * CommentLettersRatio)` — is modelled bit-exactly
(see `lettersThreshold`).
-/

namespace CommentSentiment

/-- Character class of Go's regexp `\s` (used by `whitespaceRE` and the
`\s*` prefix of `functionNameRE`): tab, newline, form feed, carriage
return and space. -/
def isRegexpSpace (c : Char) : Bool :=
  c = '\t' || c = '\n' || c = '\x0C' || c = '\r' || c = ' '

/-- Whitespace recognised by Go's `strings.TrimSpace` (`unicode.IsSpace`),
restricted to the ASCII range: `\t \n \v \f \r ' '`. -/
def isTrimmedSpace (c : Char) : Bool :=
  c = '\t' || c = '\n' || c = '\x0B' || c = '\x0C' || c = '\r' || c = ' '

/-- `[a-zA-Z]`, the class of `charsRE`. -/
def isLetterChar (c : Char) : Bool :=
  (decide ('a' ≤ c) && decide (c ≤ 'z')) || (decide ('A' ≤ c) && decide (c ≤ 'Z'))

/-- `[0-9]`. -/
def isDigitChar (c : Char) : Bool :=
  decide ('0' ≤ c) && decide (c ≤ '9')

/-- `[a-zA-Z0-9]`; `filteredFirstCharRE` is its complement. -/
def isAlnumChar (c : Char) : Bool :=
  isLetterChar c || isDigitChar c

/-- `[a-zA-Z_]`, the first character of the identifier in `functionNameRE`. -/
def isIdentStart (c : Char) : Bool :=
  isLetterChar c || c = '_'

/-- `[a-zA-Z_0-9]`, the remaining identifier characters of `functionNameRE`. -/
def isIdentChar (c : Char) : Bool :=
  isLetterChar c || isDigitChar c || c = '_'

/-- The allow-list of `filteredCharsRE = [^-a-zA-Z0-9_:;,./?!#&%+*=\n \t()]+`:
characters NOT in this set are removed. -/
def isAllowedChar (c : Char) : Bool :=
  isLetterChar c || isDigitChar c ||
  c = '-' || c = '_' || c = ':' || c = ';' || c = ',' || c = '.' || c = '/' ||
  c = '?' || c = '!' || c = '#' || c = '&' || c = '%' || c = '+' || c = '*' ||
  c = '=' || c = '\n' || c = ' ' || c = '\t' || c = '(' || c = ')'

/-- `strings.TrimSpace`: drop leading and trailing whitespace. -/
def trimSpace (l : List Char) : List Char :=
  ((l.dropWhile isTrimmedSpace).reverse.dropWhile isTrimmedSpace).reverse

/-- One attempted match of `functionNameRE = \s*[a-zA-Z_][a-zA-Z_0-9]*\(\)`
anchored at the head of `l`; on success returns the remainder after the
match.  Greedy matching needs no backtracking here because the `\s`,
identifier-start and `()` character sets are pairwise disjoint. -/
def matchFunctionName (l : List Char) : Option (List Char) :=
  match (l.dropWhile isRegexpSpace : List Char) with
  | [] => none
  | c :: cs =>
    if isIdentStart c then
      match (cs.dropWhile isIdentChar : List Char) with
      | '(' :: ')' :: r => some r
      | _ => none
    else none

/-- Left-to-right scan deleting every leftmost non-overlapping match of
`functionNameRE`, i.e. `functionNameRE.ReplaceAllString(comment, "")`.
The fuel argument is an upper bound on the number of scan steps; it is
always called with `fuel = l.length`, which suffices because every step
consumes at least one character. -/
def stripFunctionNamesAux : ℕ → List Char → List Char
  | 0, l => l
  | fuel + 1, l =>
    match l with
    | [] => []
    | c :: cs =>
      match matchFunctionName (c :: cs) with
      | some r => stripFunctionNamesAux fuel r
      | none => c :: stripFunctionNamesAux fuel cs

/-- `functionNameRE.ReplaceAllString(comment, "")`. -/
def stripFunctionNames (l : List Char) : List Char :=
  stripFunctionNamesAux l.length l

/-- `filteredCharsRE.ReplaceAllString(comment, "")`: replacing every maximal
run of disallowed characters by the empty string is the same as deleting
every disallowed character. -/
def stripDisallowed (l : List Char) : List Char :=
  l.filter isAllowedChar

/-- `whitespaceRE.ReplaceAllString(comment, " ")`: each maximal run of `\s`
characters becomes a single space.  The boolean records whether we are in
the middle of a run whose replacement space was already emitted. -/
def collapseWhitespaceAux : List Char → Bool → List Char
  | [], _ => []
  | c :: cs, inRun =>
    if isRegexpSpace c then
      if inRun then collapseWhitespaceAux cs true
      else ' ' :: collapseWhitespaceAux cs true
    else c :: collapseWhitespaceAux cs false

/-- `whitespaceRE.ReplaceAllString(comment, " ")`. -/
def collapseWhitespace (l : List Char) : List Char :=
  collapseWhitespaceAux l false

/-- Total number of characters covered by matches of `charsRE = [a-zA-Z]+`
(the Go code sums `match[1] - match[0]` over `FindAllStringIndex`), which
equals the number of letter characters. -/
def lettersCount (l : List Char) : ℕ :=
  l.countP isLetterChar

/-- Round-to-nearest, ties-to-even of `P / 2^s` (IEEE-754 significand
rounding), as a natural number. -/
def rne (P : ℕ) (s : ℕ) : ℕ :=
  if s = 0 then P
  else
    if P % 2 ^ s * 2 < 2 ^ s then P / 2 ^ s
    else if 2 ^ s < P % 2 ^ s * 2 then P / 2 ^ s + 1
    else if P / 2 ^ s % 2 = 0 then P / 2 ^ s else P / 2 ^ s + 1

/-- The smallest `s` with `P / 2^s < 2^24`, i.e. the number of significand
bits that must be rounded away to fit `P` into 24 bits.  The fuel `P`
bounds the number of halvings. -/
def f32shiftAux : ℕ → ℕ → ℕ
  | 0, _ => 0
  | fuel + 1, P => if P < 2 ^ 24 then 0 else f32shiftAux fuel (P / 2) + 1

def f32shift (P : ℕ) : ℕ :=
  f32shiftAux P P

/-- Bit-exact model of Go's `int(float32(len(comment)) * CommentLettersRatio)`
with `CommentLettersRatio = 0.6`:  `float32(0.6)` is exactly
`10066330 / 2^24`, so for `n < 2^24` (where `float32(n)` is exact) the
`float32` product is the round-to-nearest-even 24-bit rounding of
`n * 10066330 / 2^24` and the `int` conversion truncates it. -/
def lettersThreshold (n : ℕ) : ℕ :=
  rne (n * 10066330) (f32shift (n * 10066330)) * 2 ^ f32shift (n * 10066330) / 2 ^ 24

/-- The case-insensitive license pattern `(?i)[li[cs]en[cs][ei]|copyright|©`.
Its left alternative parses as: one character from the class `[li[cs]`
(i.e. `l`, `i`, `[`, `c` or `s`), the literal `en`, one of `[cs]`, one of
`[ei]`. -/
def lowerChar (c : Char) : Char :=
  if decide ('A' ≤ c) && decide (c ≤ 'Z') then Char.ofNat (c.toNat + 32) else c

/-- Match of the first license alternative anchored at the head. -/
def licenseAltAt (l : List Char) : Bool :=
  match l with
  | c1 :: c2 :: c3 :: c4 :: c5 :: _ =>
    (lowerChar c1 = 'l' || lowerChar c1 = 'i' || c1 = '[' ||
     lowerChar c1 = 'c' || lowerChar c1 = 's') &&
    (lowerChar c2 = 'e') && (lowerChar c3 = 'n') &&
    (lowerChar c4 = 'c' || lowerChar c4 = 's') &&
    (lowerChar c5 = 'e' || lowerChar c5 = 'i')
  | _ => false

/-- Case-insensitive match of the literal `copyright` anchored at the head. -/
def copyrightAt (l : List Char) : Bool :=
  match l with
  | c1 :: c2 :: c3 :: c4 :: c5 :: c6 :: c7 :: c8 :: c9 :: _ =>
    lowerChar c1 = 'c' && lowerChar c2 = 'o' && lowerChar c3 = 'p' &&
    lowerChar c4 = 'y' && lowerChar c5 = 'r' && lowerChar c6 = 'i' &&
    lowerChar c7 = 'g' && lowerChar c8 = 'h' && lowerChar c9 = 't'
  | _ => false

/-- `licenseRE.MatchString`: some suffix starts with one of the three
alternatives. -/
def licenseMatch (l : List Char) : Bool :=
  l.tails.any (fun t => licenseAltAt t || copyrightAt t ||
    (match t with | c :: _ => c = '©' | [] => false))

/-- The per-comment noise filter: the second half of
`CommentSentimentAnalysis.mergeComments`, applied to one merged comment.
Returns `none` when the comment is discarded, `some` of the cleaned string
when it is appended to `filteredComments`.  `minLen` is
`sent.MinCommentLength`. -/
def filterComment (minLen : ℤ) (comment : List Char) : Option (List Char) :=
  match (trimSpace comment : List Char) with
  | [] => none
  | ch :: rest =>
    if isAlnumChar ch then
      let c2 := stripFunctionNames (ch :: rest)
      let c3 := stripDisallowed c2
      if (c3.length : ℤ) < minLen then none
      else
        let c4 := collapseWhitespace c3
        if lettersCount c4 < lettersThreshold c4.length then none
        else if licenseMatch c4 then none
        else some c4
    else none

/-! ## Comment merging (`mergeComments`, first half) -/

/-- A `uast.Node` as far as `mergeComments` observes it: its token string
and the optional line numbers of its start/end positions
(`int(node.StartPosition.Line)` / `int(node.EndPosition.Line)`). -/
structure Node where
  token : List Char
  startPosition : Option ℕ
  endPosition : Option ℕ

/-- The `lines` map of `mergeComments`: the nodes whose start position is
on `line`, in their original traversal order (Go appends them in loop
order). -/
def lineNodes (nodes : List Node) (line : ℕ) : List Node :=
  nodes.filter (fun n => n.startPosition = some line)

/-- `sort.Ints` on a list of naturals (insertion sort). -/
def sortNats (l : List ℕ) : List ℕ :=
  l.insertionSort (fun a b => a ≤ b)

/-- The sorted distinct keys of the `lines` map: nodes without a start
position are dropped. -/
def lineNumsOf (nodes : List Node) : List ℕ :=
  sortNats (nodes.filterMap (fun n => n.startPosition)).dedup

/-- The running `maxEnd` of one loop iteration: starts at `line` and takes
the maximum with each node's end-position line (`if maxEnd < e { maxEnd = e }`). -/
def maxEndNodes (line : ℕ) (ns : List Node) : ℕ :=
  ns.foldl (fun m n =>
    match n.endPosition with
    | some e => if m < e then e else m
    | none => m) line

/-- The tokens appended to `buffer` while processing one line: each node's
token, trimmed, skipping empties. -/
def lineTokens (ns : List Node) : List (List Char) :=
  ns.filterMap (fun n =>
    match (trimSpace n.token : List Char) with
    | [] => none
    | c :: cs => some (c :: cs))

/-- `strings.Join(buffer, sep)`. -/
def joinWith (sep : List Char) : List (List Char) → List Char
  | [] => []
  | [x] => x
  | x :: y :: rest => x ++ sep ++ joinWith sep (y :: rest)

/-- The main loop of `mergeComments` over the sorted line numbers, carrying
the token buffer: a run continues to the next line number iff it is
`≤ maxEnd + 1`; on a break (or at the last line) the newline-joined buffer
is flushed as one merged comment. -/
def mergeRuns (lines : ℕ → List Node) : List ℕ → List (List Char) → List (List Char)
  | [], _ => []
  | line :: rest, buffer =>
    let buf2 := buffer ++ lineTokens (lines line)
    match rest with
    | [] => [joinWith ['\n'] buf2]
    | next :: _ =>
      if next ≤ maxEndNodes line (lines line) + 1 then mergeRuns lines rest buf2
      else joinWith ['\n'] buf2 :: mergeRuns lines rest []

/-- The `mergedComments` list of `mergeComments` (before noise filtering). -/
def mergedComments (nodes : List Node) : List (List Char) :=
  mergeRuns (lineNodes nodes) (lineNumsOf nodes) []

/-- `CommentSentimentAnalysis.mergeComments`: merge, then apply the noise
filter to each merged comment, keeping survivors in order. -/
def mergeComments (minLen : ℤ) (nodes : List Node) : List (List Char) :=
  (mergedComments nodes).filterMap (filterComment minLen)

/-! ## Day aggregation, validation, Consume, Finalize -/

/-- Lookup in an association list with a default, modelling Go map reads
(`m[k]` is the zero value when `k` is absent). -/
def lookupD {α : Type} (dflt : α) : List (ℤ × α) → ℤ → α
  | [], _ => dflt
  | (k, v) :: rest, d => if k = d then v else lookupD dflt rest d

/-- The comments accumulated for a day (`sent.commentsByDay[day]`,
with `nil` read as the empty list as `Consume` does). -/
def getDay (m : List (ℤ × List (List Char))) (d : ℤ) : List (List Char) :=
  lookupD [] m d

/-- Go map store `m[k] = v` on the association-list model. -/
def setDay : List (ℤ × List (List Char)) → ℤ → List (List Char) → List (ℤ × List (List Char))
  | [], d, v => [(d, v)]
  | (k, old) :: rest, d, v => if k = d then (d, v) :: rest else (k, old) :: setDay rest d v

/-- `CommentSentimentAnalysis.validate`: clamp the gap to the default `0.5`
when outside `[0, 1)` and the minimum comment length to the default `20`
when below `10`.  (The accompanying `log.Printf` warnings are outside the
model.) -/
def validate (gap : ℚ) (minCommentLength : ℤ) : ℚ × ℤ :=
  (if gap < 0 ∨ 1 ≤ gap then 1/2 else gap,
   if minCommentLength < 10 then 20 else minCommentLength)

/-- `CommentSentimentAnalysis.Consume`.  The UAST extraction
(`ChangesXPather.Extract`) lives outside this file; its resulting comment
node list is taken as the input.  Returns the `(result map, error)` pair —
always `(nil, nil)` — together with the updated `commentsByDay` state. -/
def consume (minLen : ℤ) (commentsByDay : List (ℤ × List (List Char))) (day : ℤ)
    (nodes : List Node) :
    Option Unit × Option Unit × List (ℤ × List (List Char)) :=
  let comments := mergeComments minLen nodes
  let dayComments := getDay commentsByDay day
  (none, none, setDay commentsByDay day (dayComments ++ comments))

/-- `sort.Ints` on Go `int` day keys. -/
def sortInts (l : List ℤ) : List ℤ :=
  l.insertionSort (fun a b => a ≤ b)

/-- The ascending enumeration of day buckets built at the start of
`Finalize`. -/
def dayKeys (m : List (ℤ × List (List Char))) : List ℤ :=
  sortInts (m.map (fun p => p.1))

/-- The flat `texts` list handed to the sentiment scorer: all day buckets
in ascending order, each day's comments in their stored order. -/
def finalizeTexts (m : List (ℤ × List (List Char))) : List (List Char) :=
  ((dayKeys m).map (getDay m)).flatten

/-- The deadzone test of `Finalize`:
`weights[pos] < 0.5*(1-sent.Gap) || weights[pos] > 0.5*(1+sent.Gap)`. -/
def sentimentKeep (gap w : ℚ) : Bool :=
  decide (w < 1/2 * (1 - gap)) || decide (1/2 * (1 + gap) < w)

/-- `weights[pos]` (scores are positionally indexed; `Finalize` only reads
positions below `weights.length` when the scorer returns one score per
text). -/
def weightAt (weights : List ℚ) (pos : ℕ) : ℚ :=
  weights.getD pos 0

/-- The inner loop of `Finalize` over one day's comments, threading the
global position `pos` and accumulating the kept sum and kept comments. -/
def reduceDayLoop (gap : ℚ) (weights : List ℚ) :
    List (List Char) → ℕ → ℚ → List (List Char) → ℚ × List (List Char) × ℕ
  | [], pos, sum, kept => (sum, kept, pos)
  | c :: cs, pos, sum, kept =>
    if sentimentKeep gap (weightAt weights pos) then
      reduceDayLoop gap weights cs (pos + 1) (sum + weightAt weights pos) (kept ++ [c])
    else
      reduceDayLoop gap weights cs (pos + 1) sum kept

/-- The outer loop of `Finalize` over the sorted days: a day enters the
result (`EmotionsByDay`/`CommentsByDay`, modelled as one triple) iff its
kept-comment list is non-empty, with the mean of the kept scores. -/
def finalizeLoop (gap : ℚ) (weights : List ℚ) (m : List (ℤ × List (List Char))) :
    List ℤ → ℕ → List (ℤ × ℚ × List (List Char))
  | [], _ => []
  | d :: ds, pos =>
    let r := reduceDayLoop gap weights (getDay m d) pos 0 []
    if 0 < r.2.1.length then
      (d, r.1 / (r.2.1.length : ℚ), r.2.1) :: finalizeLoop gap weights m ds r.2.2
    else finalizeLoop gap weights m ds r.2.2

/-- `CommentSentimentAnalysis.Finalize`, parameterised by the external
batch scorer (`sentiment.EvaluateWithProgress`), which is invoked once on
the flat `texts` list. -/
def finalize (gap : ℚ) (m : List (ℤ × List (List Char)))
    (scorer : List (List Char) → List ℚ) : List (ℤ × ℚ × List (List Char)) :=
  finalizeLoop gap (scorer (finalizeTexts m)) m (dayKeys m) 0

/-- First-match lookup in the finalize result, to state presence/absence of
a day in the result maps. -/
def lookupResult : List (ℤ × ℚ × List (List Char)) → ℤ → Option (ℚ × List (List Char))
  | [], _ => none
  | (k, v) :: rest, d => if k = d then some v else lookupResult rest d

/-! ## Text serialization (`serializeText`) -/

/-- `CommentSentimentResult` as `serializeText` consumes it (commit hashes
already rendered to strings, as `hash.String()` produces them). -/
structure SentimentResult where
  emotionsByDay : List (ℤ × ℚ)
  commentsByDay : List (ℤ × List (List Char))
  commitsByDay : List (ℤ × List (List Char))

/-- Decimal digit character. -/
def digitChar (d : ℕ) : Char :=
  Char.ofNat (48 + d % 10)

/-- Decimal digits of `n`, most significant first (the rendering of `%d`
for non-negative values).  Fuel bounds the number of divisions by 10. -/
def natCharsAux : ℕ → ℕ → List Char
  | 0, _ => []
  | fuel + 1, n =>
    if n < 10 then [digitChar n] else natCharsAux fuel (n / 10) ++ [digitChar (n % 10)]

def natChars (n : ℕ) : List Char :=
  natCharsAux (n + 1) n

/-- `%d` on a Go `int`. -/
def intChars (z : ℤ) : List Char :=
  if z < 0 then '-' :: natChars z.natAbs else natChars z.natAbs

/-- Round half to even of a rational to an integer, the rounding `fmt`
applies when trimming a value to a fixed number of decimals. -/
def rneQ (q : ℚ) : ℤ :=
  if q - ⌊q⌋ < 1/2 then ⌊q⌋
  else if 1/2 < q - ⌊q⌋ then ⌊q⌋ + 1
  else if ⌊q⌋ % 2 = 0 then ⌊q⌋ else ⌊q⌋ + 1

/-- Digits of a non-negative scaled value `m = round(|q| * 10^4)` rendered
as `<int part>.<4 digits>`. -/
def fixed4OfScaled (m : ℕ) : List Char :=
  natChars (m / 10000) ++ '.' ::
    (List.replicate (4 - (natChars (m % 10000)).length) '0' ++ natChars (m % 10000))

/-- `%.4f`: the score printed with exactly four digits after the decimal
point (sentiment scores are exact rationals in the model). -/
def formatScore4 (q : ℚ) : List Char :=
  if q < 0 then '-' :: fixed4OfScaled (rneQ (-q * 10000)).toNat
  else fixed4OfScaled (rneQ (q * 10000)).toNat

/-- One `fmt.Fprintf(writer, "  %d: [%.4f, [%s], \"%s\"]\n", ...)` line. -/
def serializeLine (day : ℤ) (score : ℚ) (hashes comments : List (List Char)) : List Char :=
  "  ".toList ++ intChars day ++ ": [".toList ++ formatScore4 score ++
  ", [".toList ++ joinWith [','] hashes ++ "], ".toList ++
  '\"' :: joinWith ['|'] comments ++ "\"]".toList ++ ['\n']

/-- `CommentSentimentAnalysis.serializeText`: one line per day of
`EmotionsByDay`, in ascending day order, appended to the writer. -/
def serializeText (r : SentimentResult) : List Char :=
  (sortInts (r.emotionsByDay.map (fun p => p.1))).foldl
    (fun acc day => acc ++ serializeLine day (lookupD 0 r.emotionsByDay day)
      (lookupD [] r.commitsByDay day) (lookupD [] r.commentsByDay day)) []

/-! ## Spec-side reformulations.

The following definitions follow the words of the specification (they are
compared against the source-derived definitions above in refinement
theorems); they are not translations of the Go code. -/

/-- Spec side, §4.2 / claim C6: "maxEnd being the largest end line among
the current line's nodes, or the line itself if none". -/
def specMaxEndNodes (line : ℕ) (ns : List Node) : ℕ :=
  match (ns.filterMap (fun n => n.endPosition) : List ℕ) with
  | [] => line
  | e :: es => es.foldl (fun a b => if a < b then b else a) e

/-- Spec side: split the ascending line numbers into maximal contiguous
runs, a run continuing from line `a` to the next line `b` iff
`b ≤ maxEnd(a) + 1`.  Parameterised by the `maxEnd` function so the same
splitting can be read with either `maxEnd` definition. -/
def splitRunsBy (me : ℕ → ℕ) : List ℕ → List (List ℕ)
  | [] => []
  | [a] => [[a]]
  | a :: b :: rest =>
    match (splitRunsBy me (b :: rest) : List (List ℕ)) with
    | [] => [[a]]
    | r :: rs => if b ≤ me a + 1 then (a :: r) :: rs else [a] :: r :: rs

/-- Spec side: one run's lines joined into a single MergedComment with
newline separators. -/
def specMergeRun (lines : ℕ → List Node) (run : List ℕ) : List Char :=
  joinWith ['\n'] ((run.map (fun l => lineTokens (lines l))).flatten)

/-- Spec side: merged comments = one newline-joined string per contiguous
run, using the spec's wording for `maxEnd`. -/
def specMerge (lines : ℕ → List Node) (nums : List ℕ) : List (List Char) :=
  (splitRunsBy (fun l => specMaxEndNodes l (lines l)) nums).map (specMergeRun lines)

/-- Spec side, §4.6: the (comment, score) pairs surviving the deadzone. -/
def keptPairs (gap : ℚ) (pairs : List (List Char × ℚ)) : List (List Char × ℚ) :=
  pairs.filter (fun p => sentimentKeep gap p.2)

/-- Spec side, §4.5/§4.6: walk the `(day, comments)` buckets in order,
consuming for each day a segment of the positionally-zipped
`(comment, score)` list of the same length as the day's comment list; a
day appears iff its kept segment is non-empty, carrying the mean of the
kept scores and the kept comments. -/
def specFinalizeAux (gap : ℚ) :
    List (ℤ × List (List Char)) → List (List Char × ℚ) → List (ℤ × ℚ × List (List Char))
  | [], _ => []
  | (d, cs) :: rest, pairs =>
    let kept := keptPairs gap (pairs.take cs.length)
    let tail := specFinalizeAux gap rest (pairs.drop cs.length)
    if kept = [] then tail
    else (d, (kept.map (fun p => p.2)).sum / (kept.length : ℚ), kept.map (fun p => p.1)) :: tail

/-- Spec side: the whole finalize phase — flatten the day buckets in
ascending order, pair the i-th flat comment with the i-th returned score,
and reduce each day's segment. -/
def specFinalize (gap : ℚ) (m : List (ℤ × List (List Char))) (weights : List ℚ) :
    List (ℤ × ℚ × List (List Char)) :=
  specFinalizeAux gap ((dayKeys m).map (fun d => (d, getDay m d)))
    ((finalizeTexts m).zip weights)

/-- Spec side: the kept (comment, score) pairs of day `d` — the day's
segment of the positionally-zipped flat list, deadzone-filtered. -/
def dayKeptPairs (gap : ℚ) (m : List (ℤ × List (List Char))) (weights : List ℚ) (d : ℤ) :
    List (List Char × ℚ) :=
  keptPairs gap ((((finalizeTexts m).zip weights).drop
    (((((dayKeys m).map (fun x => (x, getDay m x))).takeWhile
        (fun p => decide (p.1 ≠ d))).map (fun p => p.2)).flatten.length)).take
    (getDay m d).length)

/-- Spec side, §4.7 / claim C9: the text encoding as one rendered line per
day, days ascending. -/
def specSerializeText (r : SentimentResult) : List Char :=
  ((sortInts (r.emotionsByDay.map (fun p => p.1))).map
    (fun day => serializeLine day (lookupD 0 r.emotionsByDay day)
      (lookupD [] r.commitsByDay day) (lookupD [] r.commentsByDay day))).flatten

/-! ## Helper lemmas -/

lemma length_dropWhile_le (p : Char → Bool) (l : List Char) :
    (l.dropWhile p).length ≤ l.length := by
  induction l with
  | nil => simp [List.dropWhile]
  | cons c cs ih =>
    simp only [List.dropWhile, List.length_cons]
    split
    · omega
    · simp

lemma trimSpace_length_le (l : List Char) : (trimSpace l).length ≤ l.length := by
  unfold trimSpace
  calc ((l.dropWhile isTrimmedSpace).reverse.dropWhile isTrimmedSpace).reverse.length
      = ((l.dropWhile isTrimmedSpace).reverse.dropWhile isTrimmedSpace).length := by
        simp
    _ ≤ (l.dropWhile isTrimmedSpace).reverse.length := length_dropWhile_le ..
    _ = (l.dropWhile isTrimmedSpace).length := by simp
    _ ≤ l.length := length_dropWhile_le ..

lemma matchFunctionName_length {l r : List Char} (h : matchFunctionName l = some r) :
    r.length ≤ l.length := by
  unfold matchFunctionName at h
  split at h
  · exact absurd h (by simp)
  · rename_i c cs heq
    split at h
    · split at h
      · rename_i r2 heq2
        have h1 : (c :: cs).length ≤ l.length := by
          rw [← heq]; exact length_dropWhile_le ..
        have h2 : ('(' :: ')' :: r2).length ≤ cs.length := by
          rw [← heq2]; exact length_dropWhile_le ..
        simp only [Option.some.injEq] at h
        subst h
        simp only [List.length_cons] at h1 h2
        omega
      · exact absurd h (by simp)
    · exact absurd h (by simp)

lemma stripFunctionNamesAux_length (fuel : ℕ) (l : List Char) :
    (stripFunctionNamesAux fuel l).length ≤ l.length := by
  induction fuel generalizing l with
  | zero => simp [stripFunctionNamesAux]
  | succ fuel ih =>
    cases l with
    | nil => simp [stripFunctionNamesAux]
    | cons c cs =>
      simp only [stripFunctionNamesAux]
      split
      · rename_i r hm
        exact le_trans (ih r) (matchFunctionName_length hm)
      · simpa using ih cs

lemma stripFunctionNames_length_le (l : List Char) :
    (stripFunctionNames l).length ≤ l.length :=
  stripFunctionNamesAux_length l.length l

lemma stripDisallowed_length_le (l : List Char) :
    (stripDisallowed l).length ≤ l.length :=
  l.length_filter_le isAllowedChar

lemma collapseWhitespaceAux_length (l : List Char) (b : Bool) :
    (collapseWhitespaceAux l b).length ≤ l.length := by
  induction l generalizing b with
  | nil => simp [collapseWhitespaceAux]
  | cons c cs ih =>
    simp only [collapseWhitespaceAux]
    split
    · split
      · exact le_trans (ih true) (by simp)
      · simpa using ih true
    · simpa using ih false

lemma collapseWhitespace_length_le (l : List Char) :
    (collapseWhitespace l).length ≤ l.length :=
  collapseWhitespaceAux_length l false

/-- Inversion of a successful run of the noise filter: the output is the
collapse of the stripped trim, and every rejection test was passed at its
own stage. -/
lemma filterComment_eq_some {minLen : ℤ} {c s : List Char}
    (h : filterComment minLen c = some s) :
    s = collapseWhitespace (stripDisallowed (stripFunctionNames (trimSpace c))) ∧
    (∃ ch rest, trimSpace c = ch :: rest ∧ isAlnumChar ch = true) ∧
    minLen ≤ ((stripDisallowed (stripFunctionNames (trimSpace c))).length : ℤ) ∧
    lettersThreshold s.length ≤ lettersCount s ∧
    licenseMatch s = false := by
  unfold filterComment at h
  split at h
  · exact absurd h (by simp)
  · rename_i ch rest heq
    split at h
    · rename_i halnum
      simp only at h
      split at h
      · exact absurd h (by simp)
      · rename_i hlen
        split at h
        · exact absurd h (by simp)
        · rename_i hletters
          split at h
          · exact absurd h (by simp)
          · rename_i hlicense
            simp only [Option.some.injEq] at h
            subst h
            refine ⟨by rw [heq], ⟨ch, rest, heq, halnum⟩, by rw [heq]; omega, ?_, ?_⟩
            · omega
            · simpa using hlicense
    · exact absurd h (by simp)

lemma getDay_setDay_self (m : List (ℤ × List (List Char))) (d : ℤ) (v : List (List Char)) :
    getDay (setDay m d v) d = v := by
  induction m with
  | nil => simp [setDay, getDay, lookupD]
  | cons p rest ih =>
    obtain ⟨k, old⟩ := p
    simp only [setDay]
    split
    · simp [getDay, lookupD]
    · rename_i hk
      simpa [getDay, lookupD, hk] using ih

lemma getDay_setDay_ne (m : List (ℤ × List (List Char))) {d d' : ℤ} (v : List (List Char))
    (h : d' ≠ d) : getDay (setDay m d v) d' = getDay m d' := by
  induction m with
  | nil => simp [setDay, getDay, lookupD, Ne.symm h]
  | cons p rest ih =>
    obtain ⟨k, old⟩ := p
    simp only [setDay]
    split
    · rename_i hk
      subst hk
      simp [getDay, lookupD, h, Ne.symm h]
    · by_cases hkd : k = d'
      · simp [getDay, lookupD, hkd]
      · simpa [getDay, lookupD, hkd] using ih

/-! ## Claim theorems -/

/-- C5: configuration validation clamps out-of-range values to the
defaults and keeps in-range values: a gap outside `[0,1)` is reset to
`0.5`, a minimum comment length below `10` is reset to `20`, in-range
values are unchanged, and filtering with a clamped minimum length (e.g. a
configured `5`) behaves exactly as with the default `20`. -/
theorem validate_clamps (gap : ℚ) (minLen : ℤ) :
    ((gap < 0 ∨ 1 ≤ gap) → (validate gap minLen).1 = 1/2) ∧
    (0 ≤ gap → gap < 1 → (validate gap minLen).1 = gap) ∧
    (minLen < 10 → (validate gap minLen).2 = 20) ∧
    (10 ≤ minLen → (validate gap minLen).2 = minLen) ∧
    (∀ nodes, mergeComments (validate gap 5).2 nodes = mergeComments 20 nodes) := by
  refine ⟨?_, ?_, ?_, ?_, ?_⟩
  · intro h
    simp only [validate]
    rw [if_pos h]
  · intro h0 h1
    simp only [validate]
    rw [if_neg]
    push_neg
    exact ⟨h0, h1⟩
  · intro h
    simp only [validate]
    rw [if_pos h]
  · intro h
    simp only [validate]
    rw [if_neg (by omega)]
  · intro nodes
    have : (validate gap 5).2 = 20 := by simp [validate]
    rw [this]

/-- Witness for C5 at `gap = 2`, `minLen = 5`. -/
theorem validate_clamps_witness :
    (((2:ℚ) < 0 ∨ (1:ℚ) ≤ 2) → (validate 2 5).1 = 1/2) ∧
    ((0:ℚ) ≤ 2 → (2:ℚ) < 1 → (validate 2 5).1 = 2) ∧
    ((5:ℤ) < 10 → (validate 2 5).2 = 20) ∧
    ((10:ℤ) ≤ 5 → (validate 2 5).2 = 5) ∧
    (∀ nodes, mergeComments (validate 2 5).2 nodes = mergeComments 20 nodes) :=
  validate_clamps 2 5

/-- C8: the noise filter never lengthens a comment — every surviving
cleaned string is at most as long as the merged comment it came from. -/
theorem noise_filter_length_le (minLen : ℤ) (c s : List Char)
    (h : filterComment minLen c = some s) : s.length ≤ c.length := by
  obtain ⟨hs, -, -, -, -⟩ := filterComment_eq_some h
  subst hs
  calc (collapseWhitespace (stripDisallowed (stripFunctionNames (trimSpace c)))).length
      ≤ (stripDisallowed (stripFunctionNames (trimSpace c))).length :=
        collapseWhitespace_length_le _
    _ ≤ (stripFunctionNames (trimSpace c)).length := stripDisallowed_length_le _
    _ ≤ (trimSpace c).length := stripFunctionNames_length_le _
    _ ≤ c.length := trimSpace_length_le _

/-- Witness for C8 on a concrete comment that survives the filter. -/
theorem noise_filter_length_le_witness :
    ("This is a fine remark about the program".toList).length ≤
      ("This is a fine remark about the program".toList).length :=
  noise_filter_length_le 20 ("This is a fine remark about the program".toList)
    ("This is a fine remark about the program".toList) (by decide)

/-- C10: `Consume` never fails — it returns a `nil` result map and a `nil`
error — and its only state change is appending the commit's filtered
comments to the commit's day bucket, leaving every other day unchanged. -/
theorem consume_behavior (minLen : ℤ) (m : List (ℤ × List (List Char))) (day : ℤ)
    (nodes : List Node) (d : ℤ) (hne : d ≠ day) :
    (consume minLen m day nodes).1 = none ∧
    (consume minLen m day nodes).2.1 = none ∧
    getDay (consume minLen m day nodes).2.2 day = getDay m day ++ mergeComments minLen nodes ∧
    getDay (consume minLen m day nodes).2.2 d = getDay m d := by
  refine ⟨rfl, rfl, ?_, ?_⟩
  · simp [consume, getDay_setDay_self]
  · simp [consume, getDay_setDay_ne _ _ hne]

/-- Witness for C10 on a concrete state. -/
theorem consume_behavior_witness :
    (consume 20 [((1:ℤ), [['a']])] 0 []).1 = none ∧
    (consume 20 [((1:ℤ), [['a']])] 0 []).2.1 = none ∧
    getDay (consume 20 [((1:ℤ), [['a']])] 0 []).2.2 0 =
      getDay [((1:ℤ), [['a']])] 0 ++ mergeComments 20 [] ∧
    getDay (consume 20 [((1:ℤ), [['a']])] 0 []).2.2 1 = getDay [((1:ℤ), [['a']])] 1 :=
  consume_behavior 20 [((1:ℤ), [['a']])] 0 [] 1 (by decide)

/-- C1 (amended): with a valid gap, a score strictly inside the deadzone
`(0.5*(1-gap), 0.5*(1+gap))` is excluded, a score exactly at either
boundary is ALSO excluded (the Go test keeps a pair only when
`w < 0.5*(1-gap) || w > 0.5*(1+gap)`), and a pair is kept iff its score is
strictly outside the closed interval; the single-pair reduction keeps or
drops the pair accordingly. -/
theorem deadzone_boundary_amended (gap w : ℚ) (c : List Char) (h0 : 0 ≤ gap) (h1 : gap < 1) :
    (1/2 * (1 - gap) < w → w < 1/2 * (1 + gap) → sentimentKeep gap w = false) ∧
    (w = 1/2 * (1 - gap) ∨ w = 1/2 * (1 + gap) → sentimentKeep gap w = false) ∧
    (sentimentKeep gap w = true ↔ (w < 1/2 * (1 - gap) ∨ 1/2 * (1 + gap) < w)) ∧
    (reduceDayLoop gap [w] [c] 0 0 [] =
      if sentimentKeep gap w then (w, [c], 1) else (0, [], 1)) := by
  refine ⟨?_, ?_, ?_, ?_⟩
  · intro hlo hhi
    simp only [sentimentKeep, Bool.or_eq_false_iff, decide_eq_false_iff_not, not_lt]
    exact ⟨le_of_lt hlo, le_of_lt hhi⟩
  · rintro (rfl | rfl) <;>
      simp only [sentimentKeep, Bool.or_eq_false_iff, decide_eq_false_iff_not, not_lt] <;>
      constructor <;> linarith
  · simp only [sentimentKeep, Bool.or_eq_true, decide_eq_true_eq]
  · by_cases hk : sentimentKeep gap w = true
    · simp [reduceDayLoop, weightAt, hk]
    · simp only [Bool.not_eq_true] at hk
      simp [reduceDayLoop, weightAt, hk]

/-- Witness for C1 (amended) at `gap = 1/2`, `w = 1/4`. -/
theorem deadzone_boundary_amended_witness :
    ((1:ℚ)/2 * (1 - 1/2) < 1/4 → (1:ℚ)/4 < 1/2 * (1 + 1/2) →
      sentimentKeep (1/2) (1/4) = false) ∧
    ((1:ℚ)/4 = 1/2 * (1 - 1/2) ∨ (1:ℚ)/4 = 1/2 * (1 + 1/2) →
      sentimentKeep (1/2) (1/4) = false) ∧
    (sentimentKeep (1/2) (1/4) = true ↔
      ((1:ℚ)/4 < 1/2 * (1 - 1/2) ∨ (1:ℚ)/2 * (1 + 1/2) < 1/4)) ∧
    (reduceDayLoop (1/2) [1/4] [['x']] 0 0 [] =
      if sentimentKeep (1/2) (1/4) then (1/4, [['x']], 1) else (0, [], 1)) :=
  deadzone_boundary_amended (1/2) (1/4) ['x'] (by norm_num) (by norm_num)

/-- Counterexample to C1 as stated: with the default gap `0.5` the lower
deadzone boundary is exactly `0.25`, yet a pair scored `0.25` is NOT
retained — the lone comment of day 0 is dropped and the day is absent from
the result, where the claim promises the boundary pair is retained and
contributes. -/
theorem deadzone_boundary_cex :
    ((1:ℚ)/4 = 1/2 * (1 - 1/2)) ∧
    sentimentKeep (1/2) (1/4) = false ∧
    finalize (1/2) [((0:ℤ), [['x']])] (fun _ => [1/4]) = [] := by
  refine ⟨by norm_num, ?_, ?_⟩
  · simp only [sentimentKeep, Bool.or_eq_false_iff, decide_eq_false_iff_not, not_lt]
    constructor <;> norm_num
  · norm_num [finalize, finalizeLoop, finalizeTexts, dayKeys, sortInts, getDay, lookupD,
      reduceDayLoop, weightAt, sentimentKeep, List.insertionSort, List.orderedInsert]

/-- Round-to-nearest-even never overshoots by more than half an ulp:
`rne P s * 2^s ≤ P + 2^(s-1)` (stated doubled to cover `s = 0`). -/
lemma rne_mul_le (P s : ℕ) : 2 * (rne P s * 2 ^ s) ≤ 2 * P + 2 ^ s := by
  rcases Nat.eq_zero_or_pos s with hs | hs
  · subst hs
    simp [rne]
  · have hX : (0:ℕ) < 2 ^ s := Nat.pos_pow_of_pos s (by norm_num)
    have hdm : 2 ^ s * (P / 2 ^ s) + P % 2 ^ s = P := Nat.div_add_mod P (2 ^ s)
    have hr : P % 2 ^ s < 2 ^ s := Nat.mod_lt _ hX
    unfold rne
    rw [if_neg (by omega)]
    have e1 : P / 2 ^ s * 2 ^ s = 2 ^ s * (P / 2 ^ s) := mul_comm ..
    have e2 : (P / 2 ^ s + 1) * 2 ^ s = 2 ^ s * (P / 2 ^ s) + 2 ^ s := by ring
    split
    · rw [e1]; omega
    · split
      · rw [e2]; omega
      · split
        · rw [e1]; omega
        · rw [e2]; omega

lemma f32shiftAux_le {fuel P k : ℕ} (h : P < 2 ^ 24 * 2 ^ k) : f32shiftAux fuel P ≤ k := by
  induction fuel generalizing P k with
  | zero => simp [f32shiftAux]
  | succ fuel ih =>
    simp only [f32shiftAux]
    split
    · omega
    · rename_i hP
      cases k with
      | zero => simp at h; omega
      | succ k' =>
        have h' : P / 2 < 2 ^ 24 * 2 ^ k' := by
          rw [pow_succ] at h
          omega
        have := ih h'
        omega

lemma f32shift_le_24 {P : ℕ} (h : P < 2 ^ 48) : f32shift P ≤ 24 :=
  f32shiftAux_le (by norm_num; omega)

/-- The truncated `float32` letter threshold never exceeds `⌈0.6 * n⌉`:
whenever `3 * n ≤ 5 * k` (i.e. `k / n ≥ 60%`), a letter count of `k`
meets the threshold. -/
lemma lettersThreshold_le {n k : ℕ} (hn : n < 2 ^ 24) (hk : 3 * n ≤ 5 * k) :
    lettersThreshold n ≤ k := by
  have hP48 : n * 10066330 < 2 ^ 48 := by
    calc n * 10066330 < 2 ^ 24 * 10066330 :=
      (Nat.mul_lt_mul_right (by norm_num)).mpr hn
    _ ≤ 2 ^ 48 := by norm_num
  have hs : f32shift (n * 10066330) ≤ 24 := f32shift_le_24 hP48
  have hb := rne_mul_le (n * 10066330) (f32shift (n * 10066330))
  have hA : 2 ^ f32shift (n * 10066330) ≤ 2 ^ 24 :=
    Nat.pow_le_pow_right (by norm_num) hs
  unfold lettersThreshold
  omega

/-- The noise filter rejects (returns `none`) whenever the collapsed string
fails the truncated letter threshold. -/
lemma filterComment_none_of_letters {minLen : ℤ} {c : List Char}
    (h : lettersCount (collapseWhitespace (stripDisallowed (stripFunctionNames (trimSpace c)))) <
      lettersThreshold
        (collapseWhitespace (stripDisallowed (stripFunctionNames (trimSpace c)))).length) :
    filterComment minLen c = none := by
  unfold filterComment
  split
  · rfl
  · rename_i ch rest heq
    split
    · simp only
      split
      · rfl
      · rw [if_pos (by rw [heq] at h; exact h)]
    · rfl

/-- C2 (amended): every string output by the noise filter satisfies the
checks in the form and at the stage the code applies them — it does not
match the license pattern and its letter count meets the truncated
`float32` 60% threshold (both checked on the final string); it is the
whitespace-collapse of a string whose length met the configured minimum
(checked before collapsing); and the trimmed input comment began with an
alphanumeric character (checked before the text transforms).  The final
string itself may be shorter than the minimum and may start with a
non-alphanumeric character. -/
theorem filtered_invariant_amended (minLen : ℤ) (c s : List Char)
    (h : filterComment minLen c = some s) :
    licenseMatch s = false ∧
    lettersThreshold s.length ≤ lettersCount s ∧
    (∃ t, s = collapseWhitespace t ∧ minLen ≤ (t.length : ℤ)) ∧
    (∃ ch rest, trimSpace c = ch :: rest ∧ isAlnumChar ch = true) := by
  obtain ⟨hs, hfirst, hlen, hratio, hlic⟩ := filterComment_eq_some h
  exact ⟨hlic, hratio, ⟨stripDisallowed (stripFunctionNames (trimSpace c)), hs, hlen⟩, hfirst⟩

/-- Witness for C2 (amended) on a concrete surviving comment. -/
theorem filtered_invariant_amended_witness :
    licenseMatch ("the parser skips empty tokens here".toList) = false ∧
    lettersThreshold ("the parser skips empty tokens here".toList).length ≤
      lettersCount ("the parser skips empty tokens here".toList) ∧
    (∃ t, "the parser skips empty tokens here".toList = collapseWhitespace t ∧
      (20:ℤ) ≤ (t.length : ℤ)) ∧
    (∃ ch rest, trimSpace ("the parser skips empty tokens here".toList) = ch :: rest ∧
      isAlnumChar ch = true) :=
  filtered_invariant_amended 20 ("the parser skips empty tokens here".toList)
    ("the parser skips empty tokens here".toList) (by decide)

/-- Counterexample to C2 as stated: the comment
`"ab() aaaaaaaaaaaaaaaaaaaaaaa"` passes the first-character check (on `a`),
then function-name stripping removes `ab()` and leaves a leading space, so
the filter OUTPUTS a string whose first character is a space — not
alphanumeric, violating the claimed invariant on the output. -/
theorem filtered_invariant_cex :
    filterComment 20 ("ab() aaaaaaaaaaaaaaaaaaaaaaa".toList) =
      some (" aaaaaaaaaaaaaaaaaaaaaaa".toList) ∧
    (" aaaaaaaaaaaaaaaaaaaaaaa".toList).head? = some ' ' ∧
    isAlnumChar ' ' = false := by
  refine ⟨by decide, by decide, by decide⟩

/-- C4 (amended): the letter-density step passes a comment iff its letter
count is at least the TRUNCATED `float32` threshold
`int(float32(len) * 0.6)` — so a comment slightly under 60% letters can
pass — and any letter count at or above 60% of the length always meets the
threshold; a collapsed string below the threshold is rejected. -/
theorem letter_density_amended (minLen : ℤ) (c s : List Char) (n k : ℕ)
    (hn : n < 2 ^ 24) (hk : 3 * n ≤ 5 * k) :
    lettersThreshold n ≤ k ∧
    (filterComment minLen c = some s → lettersThreshold s.length ≤ lettersCount s) ∧
    (lettersCount (collapseWhitespace (stripDisallowed (stripFunctionNames (trimSpace c)))) <
       lettersThreshold
         (collapseWhitespace (stripDisallowed (stripFunctionNames (trimSpace c)))).length →
     filterComment minLen c = none) := by
  refine ⟨lettersThreshold_le hn hk, ?_, filterComment_none_of_letters⟩
  intro h
  exact (filterComment_eq_some h).2.2.2.1

/-- Witness for C4 (amended) at `n = 5`, `k = 3` (exactly 60%) and a
concrete surviving comment. -/
theorem letter_density_amended_witness :
    lettersThreshold 5 ≤ 3 ∧
    (filterComment 20 ("each byte is read once".toList) =
        some ("each byte is read once".toList) →
      lettersThreshold ("each byte is read once".toList).length ≤
        lettersCount ("each byte is read once".toList)) ∧
    (lettersCount (collapseWhitespace (stripDisallowed (stripFunctionNames
        (trimSpace ("each byte is read once".toList))))) <
       lettersThreshold (collapseWhitespace (stripDisallowed (stripFunctionNames
         (trimSpace ("each byte is read once".toList))))).length →
     filterComment 20 ("each byte is read once".toList) = none) :=
  letter_density_amended 20 ("each byte is read once".toList)
    ("each byte is read once".toList) 5 3 (by norm_num) (by norm_num)

/-- Counterexample to C4 as stated: `"ab    cd12"` (minimum length 10)
reaches the letter-density step as `"ab cd12"` — 4 letters in 7
characters, strictly under 60% — yet it PASSES the step and survives the
filter, because the truncated threshold `int(float32(7) * 0.6) = 4` is
met. -/
theorem letter_density_cex :
    filterComment 10 ("ab    cd12".toList) = some ("ab cd12".toList) ∧
    5 * lettersCount ("ab cd12".toList) < 3 * ("ab cd12".toList).length := by
  refine ⟨by decide, by decide⟩

lemma splitRunsBy_ne_nil (me : ℕ → ℕ) (a : ℕ) (l : List ℕ) : splitRunsBy me (a :: l) ≠ [] := by
  cases l with
  | nil => simp [splitRunsBy]
  | cons b rest =>
    simp only [splitRunsBy]
    split
    · simp
    · split <;> simp

/-- The buffer-threading loop of `mergeComments` produces exactly one
newline-joined comment per contiguous run, the carried buffer being
prepended to the first run. -/
lemma mergeRuns_eq (lines : ℕ → List Node) (l : List ℕ) :
    ∀ buffer : List (List Char),
    mergeRuns lines l buffer =
      match (splitRunsBy (fun x => maxEndNodes x (lines x)) l : List (List ℕ)) with
      | [] => []
      | r :: rs =>
        joinWith ['\n'] (buffer ++ (r.map (fun x => lineTokens (lines x))).flatten) ::
          rs.map (specMergeRun lines) := by
  induction l with
  | nil => intro buffer; rfl
  | cons a l ih =>
    intro buffer
    cases l with
    | nil => simp [mergeRuns, splitRunsBy, specMergeRun]
    | cons b rest =>
      obtain ⟨r, rs, heq⟩ : ∃ r rs,
          splitRunsBy (fun x => maxEndNodes x (lines x)) (b :: rest) = r :: rs := by
        rcases hsp : splitRunsBy (fun x => maxEndNodes x (lines x)) (b :: rest) with _ | ⟨r, rs⟩
        · exact absurd hsp (splitRunsBy_ne_nil _ b rest)
        · exact ⟨r, rs, rfl⟩
      have hstep : mergeRuns lines (a :: b :: rest) buffer =
          if b ≤ maxEndNodes a (lines a) + 1 then
            mergeRuns lines (b :: rest) (buffer ++ lineTokens (lines a))
          else joinWith ['\n'] (buffer ++ lineTokens (lines a)) ::
            mergeRuns lines (b :: rest) [] := rfl
      have hsp2 : splitRunsBy (fun x => maxEndNodes x (lines x)) (a :: b :: rest) =
          if b ≤ maxEndNodes a (lines a) + 1 then (a :: r) :: rs else [a] :: r :: rs := by
        simp only [splitRunsBy, heq]
      rw [hstep, hsp2]
      by_cases hb : b ≤ maxEndNodes a (lines a) + 1
      · rw [if_pos hb, if_pos hb, ih]
        rw [heq]
        simp [List.append_assoc]
      · rw [if_neg hb, if_neg hb, ih]
        rw [heq]
        simp [specMergeRun]

lemma maxEndNodes_eq_foldl_ends (ns : List Node) :
    ∀ line : ℕ, maxEndNodes line ns =
      (ns.filterMap (fun n => n.endPosition)).foldl (fun a b => if a < b then b else a) line := by
  induction ns with
  | nil => intro line; rfl
  | cons n ns ih =>
    intro line
    rcases hend : n.endPosition with _ | e
    · simp only [maxEndNodes, List.foldl_cons, hend] at ih ⊢
      simpa [List.filterMap_cons, hend] using ih line
    · simp only [maxEndNodes, List.foldl_cons, hend] at ih ⊢
      simpa [List.filterMap_cons, hend] using ih (if line < e then e else line)

/-- With well-formed positions (`endLine ≥ startLine`), the spec's wording
of `maxEnd` — "the largest end line among the current line's nodes, or the
line itself if none" — computes the same value as the code's running
maximum started at `line`. -/
lemma specMaxEndNodes_eq (line : ℕ) (ns : List Node)
    (h : ∀ n ∈ ns, ∀ e, n.endPosition = some e → line ≤ e) :
    specMaxEndNodes line ns = maxEndNodes line ns := by
  rw [maxEndNodes_eq_foldl_ends]
  unfold specMaxEndNodes
  split
  · rename_i hnil
    rw [hnil]
    rfl
  · rename_i e es heq
    have he : line ≤ e := by
      have : e ∈ ns.filterMap (fun n => n.endPosition) := by rw [heq]; simp
      obtain ⟨n, hn, hne⟩ := List.mem_filterMap.mp this
      exact h n hn e hne
    rw [heq]
    simp only [List.foldl_cons]
    have : (if line < e then e else line) = e := by
      split <;> omega
    rw [this]

/-- C6: the comment merger drops nodes without a start position, and on
the sorted distinct start lines it produces exactly one newline-joined
MergedComment per contiguous run, a run continuing to the next line iff it
is `≤ maxEnd + 1` (with the spec's reading of `maxEnd`, equivalent under
well-formed `endLine ≥ startLine` positions); in particular two comment
nodes on lines 10 and 11 merge into a single newline-joined string. -/
theorem comment_merger (minLen : ℤ) (n₀ : Node) (nodes : List Node)
    (lines : ℕ → List Node) (nums : List ℕ)
    (h₀ : n₀.startPosition = none)
    (hwf : ∀ line : ℕ, ∀ n ∈ lines line, ∀ e, n.endPosition = some e → line ≤ e) :
    mergeComments minLen (n₀ :: nodes) = mergeComments minLen nodes ∧
    mergeRuns lines nums [] = specMerge lines nums ∧
    mergedComments [⟨"foo".toList, some 10, some 10⟩, ⟨"bar".toList, some 11, some 11⟩] =
      ["foo\nbar".toList] := by
  refine ⟨?_, ?_, by decide⟩
  · have hlines : lineNodes (n₀ :: nodes) = lineNodes nodes := by
      funext line
      simp [lineNodes, List.filter_cons, h₀]
    unfold mergeComments mergedComments
    rw [hlines]
    have : lineNumsOf (n₀ :: nodes) = lineNumsOf nodes := by
      simp [lineNumsOf, List.filterMap_cons, h₀]
    rw [this]
  · have hme : (fun x => specMaxEndNodes x (lines x)) = (fun x => maxEndNodes x (lines x)) := by
      funext x
      exact specMaxEndNodes_eq x (lines x) (hwf x)
    rw [mergeRuns_eq]
    unfold specMerge
    rw [hme]
    split
    · rename_i hnil
      rw [hnil]
      rfl
    · rename_i r rs heq
      rw [heq]
      simp [specMergeRun]

/-- Witness for C6 on concrete nodes. -/
theorem comment_merger_witness :
    mergeComments 20 [⟨"x".toList, none, none⟩] = mergeComments 20 [] ∧
    mergeRuns (fun _ => []) [] [] = specMerge (fun _ => []) [] ∧
    mergedComments [⟨"foo".toList, some 10, some 10⟩, ⟨"bar".toList, some 11, some 11⟩] =
      ["foo\nbar".toList] :=
  comment_merger 20 ⟨"x".toList, none, none⟩ [] (fun _ => []) [] (by decide)
    (by intro line n hn; simp at hn)

lemma take_zip_append {α β : Type} (xs ys : List α) (zs : List β) :
    ((xs ++ ys).zip zs).take xs.length = xs.zip zs := by
  induction xs generalizing zs with
  | nil => simp
  | cons x xs ih =>
    cases zs with
    | nil => simp
    | cons z zs => simp [ih]

lemma drop_zip_append {α β : Type} (xs ys : List α) (zs : List β) :
    ((xs ++ ys).zip zs).drop xs.length = ys.zip (zs.drop xs.length) := by
  induction xs generalizing zs with
  | nil => simp
  | cons x xs ih =>
    cases zs with
    | nil => simp
    | cons z zs => simp [ih]

lemma keptPairs_cons (gap : ℚ) (c : List Char) (w : ℚ) (rest : List (List Char × ℚ)) :
    keptPairs gap ((c, w) :: rest) =
      if sentimentKeep gap w then (c, w) :: keptPairs gap rest else keptPairs gap rest := by
  simp [keptPairs, List.filter_cons]

/-- The position-threading inner loop equals filtering the day's comments
zipped against the weight list starting at the entry position. -/
lemma reduceDayLoop_eq (gap : ℚ) (weights : List ℚ) (cs : List (List Char)) :
    ∀ (pos : ℕ) (sum : ℚ) (kept : List (List Char)),
    pos + cs.length ≤ weights.length →
    reduceDayLoop gap weights cs pos sum kept =
      (sum + ((keptPairs gap (cs.zip (weights.drop pos))).map (fun p => p.2)).sum,
       kept ++ (keptPairs gap (cs.zip (weights.drop pos))).map (fun p => p.1),
       pos + cs.length) := by
  induction cs with
  | nil =>
    intro pos sum kept h
    simp [reduceDayLoop, keptPairs]
  | cons c cs ih =>
    intro pos sum kept h
    have hpos : pos < weights.length := by
      simp only [List.length_cons] at h
      omega
    have hw : weightAt weights pos = weights[pos] := List.getD_eq_getElem weights 0 hpos
    have hdrop : weights.drop pos = weights[pos] :: weights.drop (pos + 1) :=
      List.drop_eq_getElem_cons hpos
    have hlen : (pos + 1) + cs.length ≤ weights.length := by
      simp only [List.length_cons] at h
      omega
    rw [hdrop]
    simp only [List.zip_cons_cons, keptPairs_cons]
    simp only [reduceDayLoop, hw]
    by_cases hk : sentimentKeep gap (weights[pos])
    · rw [if_pos hk, if_pos hk, ih (pos + 1) (sum + weights[pos]) (kept ++ [c]) hlen]
      refine Prod.ext ?_ (Prod.ext ?_ ?_)
      · simp only [List.map_cons, List.sum_cons]
        ring
      · simp
      · simp only [List.length_cons]
        omega
    · rw [if_neg hk, if_neg hk, ih (pos + 1) sum kept hlen]
      refine Prod.ext ?_ (Prod.ext ?_ ?_)
      · rfl
      · rfl
      · simp only [List.length_cons]
        omega

/-- The outer loop of `Finalize` equals the spec-side segment walk over the
flat comment list zipped with the weights. -/
lemma finalizeLoop_eq (gap : ℚ) (weights : List ℚ) (m : List (ℤ × List (List Char)))
    (days : List ℤ) :
    ∀ pos : ℕ,
    pos + ((days.map (getDay m)).flatten).length ≤ weights.length →
    finalizeLoop gap weights m days pos =
      specFinalizeAux gap (days.map (fun d => (d, getDay m d)))
        (((days.map (getDay m)).flatten).zip (weights.drop pos)) := by
  induction days with
  | nil => intro pos h; rfl
  | cons d ds ih =>
    intro pos h
    have hsplit : pos + (((d :: ds).map (getDay m)).flatten).length =
        (pos + (getDay m d).length) + ((ds.map (getDay m)).flatten).length := by
      simp only [List.map_cons, List.flatten_cons, List.length_append]
      omega
    have hlen1 : pos + (getDay m d).length ≤ weights.length := by omega
    have hlen2 : (pos + (getDay m d).length) + ((ds.map (getDay m)).flatten).length
        ≤ weights.length := by omega
    simp only [finalizeLoop]
    rw [reduceDayLoop_eq gap weights (getDay m d) pos 0 [] hlen1]
    simp only [List.map_cons, List.flatten_cons, specFinalizeAux]
    rw [take_zip_append, drop_zip_append, List.drop_drop]
    rw [ih (pos + (getDay m d).length) hlen2]
    simp only [List.nil_append, List.length_map, zero_add]
    by_cases hkp : keptPairs gap ((getDay m d).zip (weights.drop pos)) = []
    · rw [if_neg (by simp [hkp]), if_pos hkp]
    · rw [if_pos (by simpa [List.length_pos] using hkp), if_neg hkp]

/-- `Finalize` refines the spec-side positional description whenever the
scorer honours its contract of one score per text. -/
lemma finalize_eq_spec (gap : ℚ) (m : List (ℤ × List (List Char)))
    (scorer : List (List Char) → List ℚ)
    (hlen : (scorer (finalizeTexts m)).length = (finalizeTexts m).length) :
    finalize gap m scorer = specFinalize gap m (scorer (finalizeTexts m)) := by
  unfold finalize specFinalize
  rw [finalizeLoop_eq gap _ m (dayKeys m) 0
    (by simpa [finalizeTexts] using le_of_eq hlen.symm)]
  rw [List.drop_zero]
  rfl

/-- C7: the flat text list is the ascending-day, order-preserving
flattening of the day buckets, handed to the scorer in one batch, and the
finalize reduction pairs the i-th returned score with the i-th comment of
that same enumeration (each day consuming its own contiguous segment of
the zipped list). -/
theorem batch_scorer_positional (gap : ℚ) (m : List (ℤ × List (List Char)))
    (scorer : List (List Char) → List ℚ)
    (hlen : (scorer (finalizeTexts m)).length = (finalizeTexts m).length) :
    finalizeTexts m = ((dayKeys m).map (getDay m)).flatten ∧
    finalize gap m scorer = specFinalize gap m (scorer (finalizeTexts m)) :=
  ⟨rfl, finalize_eq_spec gap m scorer hlen⟩

/-- Witness for C7 on a concrete two-day state and a constant scorer. -/
theorem batch_scorer_positional_witness :
    finalizeTexts [((1:ℤ), ["b one".toList]), ((0:ℤ), ["a one".toList, "a two".toList])] =
      ((dayKeys [((1:ℤ), ["b one".toList]), ((0:ℤ), ["a one".toList, "a two".toList])]).map
        (getDay [((1:ℤ), ["b one".toList]), ((0:ℤ), ["a one".toList, "a two".toList])])).flatten ∧
    finalize (1/2) [((1:ℤ), ["b one".toList]), ((0:ℤ), ["a one".toList, "a two".toList])]
        (fun ts => ts.map (fun _ => (0:ℚ))) =
      specFinalize (1/2) [((1:ℤ), ["b one".toList]), ((0:ℤ), ["a one".toList, "a two".toList])]
        ((fun (ts : List (List Char)) => ts.map (fun _ => (0:ℚ)))
          (finalizeTexts [((1:ℤ), ["b one".toList]), ((0:ℤ), ["a one".toList, "a two".toList])])) :=
  batch_scorer_positional (1/2)
    [((1:ℤ), ["b one".toList]), ((0:ℤ), ["a one".toList, "a two".toList])]
    (fun ts => ts.map (fun _ => (0:ℚ))) (by simp)

lemma lookupResult_specAux_not_mem (gap : ℚ) (dayPairs : List (ℤ × List (List Char)))
    (d : ℤ) (h : d ∉ dayPairs.map (fun p => p.1)) :
    ∀ pairs, lookupResult (specFinalizeAux gap dayPairs pairs) d = none := by
  induction dayPairs with
  | nil => intro pairs; rfl
  | cons p rest ih =>
    intro pairs
    obtain ⟨d0, cs0⟩ := p
    simp only [List.map_cons, List.mem_cons, not_or] at h
    obtain ⟨hne, hrest⟩ := h
    simp only [specFinalizeAux]
    by_cases hkp : keptPairs gap (pairs.take cs0.length) = []
    · rw [if_pos hkp]
      exact ih hrest _
    · rw [if_neg hkp]
      simp only [lookupResult]
      rw [if_neg (fun hh => hne hh.symm)]
      exact ih hrest _

/-- Looking a day up in the spec-side finalize result: its unique bucket's
segment decides presence (kept segment non-empty) and the carried mean and
kept comments. -/
lemma lookupResult_specAux_mem (gap : ℚ) (dayPairs : List (ℤ × List (List Char)))
    (d : ℤ) (cs : List (List Char))
    (hnodup : (dayPairs.map (fun p => p.1)).Nodup) (hmem : (d, cs) ∈ dayPairs) :
    ∀ pairs, lookupResult (specFinalizeAux gap dayPairs pairs) d =
      (if keptPairs gap ((pairs.drop
            ((dayPairs.takeWhile (fun p => decide (p.1 ≠ d))).map
              (fun p => p.2)).flatten.length).take cs.length) = [] then none
       else some
        (((keptPairs gap ((pairs.drop
            ((dayPairs.takeWhile (fun p => decide (p.1 ≠ d))).map
              (fun p => p.2)).flatten.length).take cs.length)).map (fun p => p.2)).sum /
          ((keptPairs gap ((pairs.drop
            ((dayPairs.takeWhile (fun p => decide (p.1 ≠ d))).map
              (fun p => p.2)).flatten.length).take cs.length)).length : ℚ),
         (keptPairs gap ((pairs.drop
            ((dayPairs.takeWhile (fun p => decide (p.1 ≠ d))).map
              (fun p => p.2)).flatten.length).take cs.length)).map (fun p => p.1))) := by
  induction dayPairs with
  | nil => exact absurd hmem (by simp)
  | cons p rest ih =>
    intro pairs
    obtain ⟨d0, cs0⟩ := p
    simp only [List.map_cons, List.nodup_cons] at hnodup
    obtain ⟨hd0, hnodup'⟩ := hnodup
    by_cases hdd : d0 = d
    · subst hdd
      have hcs : cs = cs0 := by
        rcases List.mem_cons.mp hmem with heq | hmemr
        · simpa using congrArg Prod.snd heq
        · exact absurd (List.mem_map.mpr ⟨(d0, cs), hmemr, rfl⟩) hd0
      subst hcs
      have htw : (((d0, cs) :: rest).takeWhile (fun p => decide (p.1 ≠ d0))) = [] := by
        simp [List.takeWhile]
      rw [htw]
      simp only [List.map_nil, List.flatten_nil, List.length_nil, List.drop_zero]
      simp only [specFinalizeAux]
      by_cases hkp : keptPairs gap (pairs.take cs.length) = []
      · rw [if_pos hkp, if_pos hkp]
        exact lookupResult_specAux_not_mem gap rest d0 hd0 _
      · rw [if_neg hkp, if_neg hkp]
        simp [lookupResult]
    · have hmemr : (d, cs) ∈ rest := by
        rcases List.mem_cons.mp hmem with heq | hmemr
        · exact absurd (by simpa using congrArg Prod.fst heq.symm) hdd
        · exact hmemr
      have htw : (((d0, cs0) :: rest).takeWhile (fun p => decide (p.1 ≠ d))) =
          (d0, cs0) :: rest.takeWhile (fun p => decide (p.1 ≠ d)) := by
        simp [List.takeWhile, hdd]
      rw [htw]
      simp only [List.map_cons, List.flatten_cons, List.length_append]
      simp only [specFinalizeAux]
      have hlook : ∀ tail, lookupResult ((d0,
          ((keptPairs gap (pairs.take cs0.length)).map (fun p => p.2)).sum /
            ((keptPairs gap (pairs.take cs0.length)).length : ℚ),
          (keptPairs gap (pairs.take cs0.length)).map (fun p => p.1)) :: tail) d =
          lookupResult tail d := by
        intro tail
        simp only [lookupResult]
        rw [if_neg hdd]
      by_cases hkp : keptPairs gap (pairs.take cs0.length) = []
      · rw [if_pos hkp]
        rw [ih hnodup' hmemr (pairs.drop cs0.length)]
        rw [List.drop_drop]
      · rw [if_neg hkp]
        rw [hlook]
        rw [ih hnodup' hmemr (pairs.drop cs0.length)]
        rw [List.drop_drop]

/-- C3: a day is absent from the result maps iff no (comment, score) pair
of that day survives the deadzone; a present day carries the arithmetic
mean of exactly the kept scores and exactly the kept comments in their
original order.  Scenario C: scores `[0.1, 0.6, 0.9]` with gap `0.5` keep
`0.1` and `0.9`, mean `0.5`, exactly those two comments. -/
theorem day_reduction (gap : ℚ) (m : List (ℤ × List (List Char)))
    (scorer : List (List Char) → List ℚ) (d : ℤ)
    (hlen : (scorer (finalizeTexts m)).length = (finalizeTexts m).length)
    (hnodup : (m.map (fun p => p.1)).Nodup) :
    (d ∉ m.map (fun p => p.1) → lookupResult (finalize gap m scorer) d = none) ∧
    (dayKeptPairs gap m (scorer (finalizeTexts m)) d = [] →
      lookupResult (finalize gap m scorer) d = none) ∧
    (d ∈ m.map (fun p => p.1) → dayKeptPairs gap m (scorer (finalizeTexts m)) d ≠ [] →
      lookupResult (finalize gap m scorer) d =
        some (((dayKeptPairs gap m (scorer (finalizeTexts m)) d).map (fun p => p.2)).sum /
            ((dayKeptPairs gap m (scorer (finalizeTexts m)) d).length : ℚ),
          (dayKeptPairs gap m (scorer (finalizeTexts m)) d).map (fun p => p.1))) ∧
    finalize (1/2) [((5:ℤ), ["ca".toList, "cb".toList, "cc".toList])]
        (fun _ => [1/10, 6/10, 9/10]) =
      [((5:ℤ), 1/2, ["ca".toList, "cc".toList])] := by
  have hperm := List.perm_insertionSort (fun a b => a ≤ b) (m.map (fun p => p.1))
  have hkeys : ((dayKeys m).map (fun x => (x, getDay m x))).map (fun p => p.1) = dayKeys m := by
    rw [List.map_map]
    simp [Function.comp_def]
  have hnotmem : d ∉ m.map (fun p => p.1) →
      lookupResult (finalize gap m scorer) d = none := by
    intro hd
    rw [finalize_eq_spec gap m scorer hlen]
    unfold specFinalize
    apply lookupResult_specAux_not_mem
    rw [hkeys]
    exact fun hmem => hd (hperm.mem_iff.mp hmem)
  have hmemcase : d ∈ m.map (fun p => p.1) →
      lookupResult (finalize gap m scorer) d =
        (if dayKeptPairs gap m (scorer (finalizeTexts m)) d = [] then none
         else some
          (((dayKeptPairs gap m (scorer (finalizeTexts m)) d).map (fun p => p.2)).sum /
              ((dayKeptPairs gap m (scorer (finalizeTexts m)) d).length : ℚ),
            (dayKeptPairs gap m (scorer (finalizeTexts m)) d).map (fun p => p.1))) := by
    intro hd
    have hd' : d ∈ dayKeys m := hperm.mem_iff.mpr hd
    have hdp : (d, getDay m d) ∈ (dayKeys m).map (fun x => (x, getDay m x)) :=
      List.mem_map.mpr ⟨d, hd', rfl⟩
    have hnodup2 : (((dayKeys m).map (fun x => (x, getDay m x))).map (fun p => p.1)).Nodup := by
      rw [hkeys]
      exact hperm.nodup_iff.mpr hnodup
    rw [finalize_eq_spec gap m scorer hlen]
    unfold specFinalize
    rw [lookupResult_specAux_mem gap _ d (getDay m d) hnodup2 hdp
      ((finalizeTexts m).zip (scorer (finalizeTexts m)))]
    rfl
  refine ⟨hnotmem, ?_, ?_, ?_⟩
  · intro hkp
    by_cases hd : d ∈ m.map (fun p => p.1)
    · rw [hmemcase hd, if_pos hkp]
    · exact hnotmem hd
  · intro hd hkp
    rw [hmemcase hd, if_neg hkp]
  · norm_num [finalize, finalizeLoop, finalizeTexts, dayKeys, sortInts, getDay, lookupD,
      reduceDayLoop, weightAt, sentimentKeep, List.insertionSort, List.orderedInsert]

/-- Witness for C3 on a one-day state with a kept score. -/
theorem day_reduction_witness :
    ((0:ℤ) ∉ [((0:ℤ), [['h','i']])].map (fun p => p.1) →
      lookupResult (finalize (1/2) [((0:ℤ), [['h','i']])]
        (fun ts => ts.map (fun _ => (0:ℚ)))) 0 = none) ∧
    (dayKeptPairs (1/2) [((0:ℤ), [['h','i']])]
        ((fun (ts : List (List Char)) => ts.map (fun _ => (0:ℚ)))
          (finalizeTexts [((0:ℤ), [['h','i']])])) 0 = [] →
      lookupResult (finalize (1/2) [((0:ℤ), [['h','i']])]
        (fun ts => ts.map (fun _ => (0:ℚ)))) 0 = none) ∧
    ((0:ℤ) ∈ [((0:ℤ), [['h','i']])].map (fun p => p.1) →
      dayKeptPairs (1/2) [((0:ℤ), [['h','i']])]
        ((fun (ts : List (List Char)) => ts.map (fun _ => (0:ℚ)))
          (finalizeTexts [((0:ℤ), [['h','i']])])) 0 ≠ [] →
      lookupResult (finalize (1/2) [((0:ℤ), [['h','i']])]
        (fun ts => ts.map (fun _ => (0:ℚ)))) 0 =
        some (((dayKeptPairs (1/2) [((0:ℤ), [['h','i']])]
            ((fun (ts : List (List Char)) => ts.map (fun _ => (0:ℚ)))
              (finalizeTexts [((0:ℤ), [['h','i']])])) 0).map (fun p => p.2)).sum /
            ((dayKeptPairs (1/2) [((0:ℤ), [['h','i']])]
              ((fun (ts : List (List Char)) => ts.map (fun _ => (0:ℚ)))
                (finalizeTexts [((0:ℤ), [['h','i']])])) 0).length : ℚ),
          (dayKeptPairs (1/2) [((0:ℤ), [['h','i']])]
            ((fun (ts : List (List Char)) => ts.map (fun _ => (0:ℚ)))
              (finalizeTexts [((0:ℤ), [['h','i']])])) 0).map (fun p => p.1))) ∧
    finalize (1/2) [((5:ℤ), ["ca".toList, "cb".toList, "cc".toList])]
        (fun _ => [1/10, 6/10, 9/10]) =
      [((5:ℤ), 1/2, ["ca".toList, "cc".toList])] :=
  day_reduction (1/2) [((0:ℤ), [['h','i']])] (fun ts => ts.map (fun _ => (0:ℚ))) 0
    (by simp) (by decide)

lemma foldl_append_eq_flatten {α β : Type} (f : α → List β) (l : List α) :
    ∀ init : List β, l.foldl (fun acc x => acc ++ f x) init = init ++ (l.map f).flatten := by
  induction l with
  | nil => intro init; simp
  | cons x xs ih =>
    intro init
    simp only [List.foldl_cons, List.map_cons, List.flatten_cons, ih, List.append_assoc]

lemma digitChar_ne_newline (d : ℕ) : digitChar d ≠ '\n' := by
  unfold digitChar
  have h : d % 10 < 10 := Nat.mod_lt _ (by norm_num)
  interval_cases h : d % 10 <;> simp_all

lemma natCharsAux_newline (fuel n : ℕ) : ('\n' : Char) ∉ natCharsAux fuel n := by
  induction fuel generalizing n with
  | zero => simp [natCharsAux]
  | succ fuel ih =>
    simp only [natCharsAux]
    split
    · simpa using (digitChar_ne_newline n).symm
    · simp only [List.mem_append, List.mem_singleton]
      push_neg
      exact ⟨ih (n / 10), (digitChar_ne_newline (n % 10)).symm⟩

lemma natChars_newline (n : ℕ) : ('\n' : Char) ∉ natChars n :=
  natCharsAux_newline (n + 1) n

lemma intChars_newline (z : ℤ) : ('\n' : Char) ∉ intChars z := by
  unfold intChars
  split
  · simp only [List.mem_cons]
    push_neg
    exact ⟨by decide, natChars_newline _⟩
  · exact natChars_newline _

lemma fixed4OfScaled_newline (m : ℕ) : ('\n' : Char) ∉ fixed4OfScaled m := by
  unfold fixed4OfScaled
  simp only [List.mem_append, List.mem_cons, List.mem_replicate]
  push_neg
  exact ⟨natChars_newline _, by decide, fun _ => by decide, natChars_newline _⟩

lemma formatScore4_newline (q : ℚ) : ('\n' : Char) ∉ formatScore4 q := by
  unfold formatScore4
  split
  · simp only [List.mem_cons]
    push_neg
    exact ⟨by decide, fixed4OfScaled_newline _⟩
  · exact fixed4OfScaled_newline _

lemma joinWith_newline (sep : List Char) (hsep : ('\n' : Char) ∉ sep) :
    ∀ ls : List (List Char), (∀ s ∈ ls, ('\n' : Char) ∉ s) → ('\n' : Char) ∉ joinWith sep ls
  | [], _ => by simp [joinWith]
  | [x], h => by simpa [joinWith] using h x (by simp)
  | x :: y :: rest, h => by
    simp only [joinWith, List.mem_append]
    push_neg
    refine ⟨⟨h x (by simp), hsep⟩, ?_⟩
    exact joinWith_newline sep hsep (y :: rest) (fun s hs => h s (List.mem_cons_of_mem _ hs))

lemma count_eq_zero_of_not_mem {c : Char} {l : List Char} (h : c ∉ l) : l.count c = 0 :=
  List.count_eq_zero.mpr h

/-- Each rendered day line contains exactly one newline (its terminator),
provided the day's hash and comment strings are newline-free. -/
lemma serializeLine_count (day : ℤ) (score : ℚ) (hashes comments : List (List Char))
    (hh : ∀ s ∈ hashes, ('\n' : Char) ∉ s) (hc : ∀ s ∈ comments, ('\n' : Char) ∉ s) :
    (serializeLine day score hashes comments).count '\n' = 1 := by
  unfold serializeLine
  simp only [List.count_append, List.count_cons]
  rw [count_eq_zero_of_not_mem (intChars_newline day),
      count_eq_zero_of_not_mem (formatScore4_newline score),
      count_eq_zero_of_not_mem (joinWith_newline [','] (by decide) hashes hh),
      count_eq_zero_of_not_mem (joinWith_newline ['|'] (by decide) comments hc)]
  decide

lemma serializeText_eq_spec (r : SentimentResult) :
    serializeText r = specSerializeText r := by
  unfold serializeText specSerializeText
  rw [foldl_append_eq_flatten]
  simp

lemma serializeText_count (r : SentimentResult)
    (hc : ∀ d : ℤ, ∀ s ∈ lookupD [] r.commentsByDay d, ('\n' : Char) ∉ s)
    (hh : ∀ d : ℤ, ∀ s ∈ lookupD [] r.commitsByDay d, ('\n' : Char) ∉ s) :
    (serializeText r).count '\n' = (sortInts (r.emotionsByDay.map (fun p => p.1))).length := by
  rw [serializeText_eq_spec]
  unfold specSerializeText
  generalize sortInts (r.emotionsByDay.map (fun p => p.1)) = days
  induction days with
  | nil => simp
  | cons d ds ih =>
    simp only [List.map_cons, List.flatten_cons, List.count_append, List.length_cons]
    rw [ih, serializeLine_count d _ _ _ (hh d) (hc d)]
    omega

set_option maxRecDepth 4000 in
lemma formatScore4_34 : formatScore4 (3/4) = "0.7500".toList := by
  have h1 : rneQ ((3:ℚ)/4 * 10000) = 7500 := by
    norm_num [rneQ]
  rw [formatScore4, if_neg (by norm_num : ¬ ((3:ℚ)/4 < 0)), h1]
  decide

set_option maxRecDepth 4000 in
lemma formatScore4_12 : formatScore4 (1/2) = "0.5000".toList := by
  have h1 : rneQ ((1:ℚ)/2 * 10000) = 5000 := by
    norm_num [rneQ]
  rw [formatScore4, if_neg (by norm_num : ¬ ((1:ℚ)/2 < 0)), h1]
  decide

/-- C9: the text serializer emits exactly one line per day of the result,
in ascending day order — the output is the concatenation, over the sorted
day keys, of `"  <day>: [<score to 4 decimals>, [<comma-joined hashes>],
\"<pipe-joined comments>\"]\n"`, its newline count equals the number of
days (for newline-free payloads), and a concrete two-day result renders
exactly as claimed. -/
theorem serialize_text_per_day (r : SentimentResult)
    (hc : ∀ d : ℤ, ∀ s ∈ lookupD [] r.commentsByDay d, ('\n' : Char) ∉ s)
    (hh : ∀ d : ℤ, ∀ s ∈ lookupD [] r.commitsByDay d, ('\n' : Char) ∉ s) :
    serializeText r = specSerializeText r ∧
    List.Sorted (fun a b => a ≤ b) (sortInts (r.emotionsByDay.map (fun p => p.1))) ∧
    (sortInts (r.emotionsByDay.map (fun p => p.1))).Perm (r.emotionsByDay.map (fun p => p.1)) ∧
    (serializeText r).count '\n' = (sortInts (r.emotionsByDay.map (fun p => p.1))).length ∧
    serializeText ⟨[(3, 1/2), (1, 3/4)],
        [(1, ["ca".toList, "cb".toList]), (3, ["x y".toList])],
        [(1, ["h1".toList]), (3, ["h2".toList, "h3".toList])]⟩ =
      ("  1: [0.7500, [h1], \"ca|cb\"]\n  3: [0.5000, [h2,h3], \"x y\"]\n").toList := by
  refine ⟨serializeText_eq_spec r, List.sorted_insertionSort _ _, List.perm_insertionSort _ _,
    serializeText_count r hc hh, ?_⟩
  have hss : sortInts [(3:ℤ), 1] = [1, 3] := by decide
  have hline1 : serializeLine 1 (3/4) ["h1".toList] ["ca".toList, "cb".toList] =
      ("  1: [0.7500, [h1], \"ca|cb\"]\n").toList := by
    unfold serializeLine
    rw [formatScore4_34]
    decide
  have hline3 : serializeLine 3 (1/2) ["h2".toList, "h3".toList] ["x y".toList] =
      ("  3: [0.5000, [h2,h3], \"x y\"]\n").toList := by
    unfold serializeLine
    rw [formatScore4_12]
    decide
  unfold serializeText
  have hmap : ([((3:ℤ), (1:ℚ)/2), (1, 3/4)].map (fun p => p.1)) = [(3:ℤ), 1] := rfl
  simp only [hmap, hss, List.foldl_cons, List.foldl_nil]
  have hl1 : lookupD (0:ℚ) [((3:ℤ), (1:ℚ)/2), (1, 3/4)] 1 = 3/4 := by
    norm_num [lookupD]
  have hl3 : lookupD (0:ℚ) [((3:ℤ), (1:ℚ)/2), (1, 3/4)] 3 = 1/2 := by
    norm_num [lookupD]
  have hc1 : lookupD ([] : List (List Char))
      [((1:ℤ), ["ca".toList, "cb".toList]), (3, ["x y".toList])] 1 =
      ["ca".toList, "cb".toList] := by
    norm_num [lookupD]
  have hc3 : lookupD ([] : List (List Char))
      [((1:ℤ), ["ca".toList, "cb".toList]), (3, ["x y".toList])] 3 = ["x y".toList] := by
    norm_num [lookupD]
  have hh1 : lookupD ([] : List (List Char))
      [((1:ℤ), ["h1".toList]), (3, ["h2".toList, "h3".toList])] 1 = ["h1".toList] := by
    norm_num [lookupD]
  have hh3 : lookupD ([] : List (List Char))
      [((1:ℤ), ["h1".toList]), (3, ["h2".toList, "h3".toList])] 3 =
      ["h2".toList, "h3".toList] := by
    norm_num [lookupD]
  rw [hl1, hl3, hc1, hc3, hh1, hh3, hline1, hline3]
  decide

/-- Witness for C9 on an empty result (hypotheses hold vacuously). -/
theorem serialize_text_per_day_witness :
    serializeText ⟨[], [], []⟩ = specSerializeText ⟨[], [], []⟩ ∧
    List.Sorted (fun a b => a ≤ b)
      (sortInts (([] : List (ℤ × ℚ)).map (fun p => p.1))) ∧
    (sortInts (([] : List (ℤ × ℚ)).map (fun p => p.1))).Perm
      (([] : List (ℤ × ℚ)).map (fun p => p.1)) ∧
    (serializeText ⟨[], [], []⟩).count '\n' =
      (sortInts (([] : List (ℤ × ℚ)).map (fun p => p.1))).length ∧
    serializeText ⟨[(3, 1/2), (1, 3/4)],
        [(1, ["ca".toList, "cb".toList]), (3, ["x y".toList])],
        [(1, ["h1".toList]), (3, ["h2".toList, "h3".toList])]⟩ =
      ("  1: [0.7500, [h1], \"ca|cb\"]\n  3: [0.5000, [h2,h3], \"x y\"]\n").toList :=
  serialize_text_per_day ⟨[], [], []⟩
    (by intro d s hs; simp [lookupD] at hs) (by intro d s hs; simp [lookupD] at hs)

end CommentSentiment
